import Mathlib

set_option maxHeartbeats 1000000

/-!
Shallow embedding of the ADVMachineLearning repository, covering the
AutoMentor vector memory store (`automentor/core/memory/vector_store.py`),
the memory manager cleanup (`automentor/core/memory/memory_manager.py`),
the task planner heuristics (`automentor/core/planning/task_planner.py`),
and the mental-health-assistant AI chat fallback and mood-logging route
(`mental-health-assistant/backend/services/ai_chat.py`,
`mental-health-assistant/backend/routes/mood.py`).

Python dicts are embedded as insertion-ordered association lists, Python
floats (importance scores, complexity weights) as rationals, datetimes as
integer timestamps.  External services (the sentence encoder, the FAISS
nearest-neighbour search, the DialoGPT generation call, uuid4, the wall
clock) enter as explicit parameters of the operations that call them.
-/

/-! ## Insertion-ordered dictionaries (Python `dict` semantics) -/

/-- Lookup in an insertion-ordered association list, as `d[k]` / `d.get(k)`. -/
def dlookup {β : Type} (k : String) : List (String × β) → Option β
  | [] => none
  | p :: rest => if p.1 = k then some p.2 else dlookup k rest

/-- Assignment `d[k] = v` on a Python dict: replaces the value in place if the
key is present (keeping its position in insertion order), else appends. -/
def dinsert {β : Type} (k : String) (v : β) : List (String × β) → List (String × β)
  | [] => [(k, v)]
  | p :: rest => if p.1 = k then (k, v) :: rest else p :: dinsert k v rest

/-- Deletion `del d[k]`: removes the first (for a dict: the only) entry with
key `k`. -/
def derase {β : Type} (k : String) : List (String × β) → List (String × β)
  | [] => []
  | p :: rest => if p.1 = k then rest else p :: derase k rest

/-- Keys of the dict in insertion order, as `list(d.keys())`. -/
def dkeys {β : Type} (d : List (String × β)) : List String := d.map Prod.fst

/-- Python `list.remove(x)`: drops the first occurrence of `x`. -/
def removeFirst (x : String) : List String → List String
  | [] => []
  | y :: rest => if y = x then rest else y :: removeFirst x rest

/-! ## Python string helpers -/

/-- Bool test that `needle` is a prefix of `hay` (char lists). -/
def isPref : List Char → List Char → Bool
  | _, [] => true
  | [], _ :: _ => false
  | a :: as, b :: bs => a == b && isPref as bs

/-- Python `needle in hay` for strings: substring occurrence test. -/
def hasSub (hay needle : List Char) : Bool :=
  match hay with
  | [] => needle.isEmpty
  | _ :: t => isPref hay needle || hasSub t needle

/-- Python `s.lower()` (character-wise lowering suffices for the ASCII
keyword lists used by the planner). -/
def pyLower (s : String) : List Char := s.data.map Char.toLower

/-- Python `s.strip()`: drop whitespace from both ends. -/
def pyStrip (l : List Char) : List Char :=
  ((l.dropWhile Char.isWhitespace).reverse.dropWhile Char.isWhitespace).reverse

/-! ## AutoMentor vector memory store (`vector_store.py`) -/

/-- Embedding of the pydantic `MemoryEntry` model (`core/models.py`).
`created_at` is an integer timestamp (seconds), `importance` and the
embedding components are rationals standing for Python floats, `metadata`
is a string-valued dict. -/
structure MemoryEntry where
  id : String
  user_id : String
  content : String
  type : String
  metadata : List (String × String)
  embedding : List ℚ
  created_at : Int
  importance : ℚ
deriving Repr, DecidableEq

/-- Serialisation of a timestamp as `_save_store` writes `created_at`:
`datetime.isoformat` is modelled as the (lossless) sign plus base-10 digit
string of the timestamp. -/
def isoOfTime (t : Int) : Bool × List Nat := (decide (t < 0), Nat.digits 10 t.natAbs)

/-- Parsing a serialised timestamp, as `datetime.fromisoformat` in
`_load_store`. -/
def timeOfIso (p : Bool × List Nat) : Int :=
  if p.1 then -((Nat.ofDigits 10 p.2 : Nat) : Int) else ((Nat.ofDigits 10 p.2 : Nat) : Int)

/-- Serialised form of a `MemoryEntry` as written to `memories.json`:
`mem_dict = memory.dict()` with the `created_at` field replaced by its isoformat string. -/
structure StoredEntry where
  id : String
  user_id : String
  content : String
  type : String
  metadata : List (String × String)
  embedding : List ℚ
  created_at_iso : Bool × List Nat
  importance : ℚ
deriving Repr, DecidableEq

/-- The per-entry serialisation performed by `_save_store`. -/
def storedOfEntry (m : MemoryEntry) : StoredEntry :=
  ⟨m.id, m.user_id, m.content, m.type, m.metadata, m.embedding, isoOfTime m.created_at, m.importance⟩

/-- The per-entry parse performed by `_load_store`. -/
def entryOfStored (e : StoredEntry) : MemoryEntry :=
  ⟨e.id, e.user_id, e.content, e.type, e.metadata, e.embedding, timeOfIso e.created_at_iso, e.importance⟩

/-- Contents of `memories.json` as written by `_save_store`. -/
structure SavedData where
  memories : List (String × StoredEntry)
  user_memories : List (String × List String)
deriving Repr, DecidableEq

/-- State of a `VectorMemoryStore`: the FAISS index (list of stored vectors
in insertion order; only rows matter for the claims, vector contents are
whatever the external normaliser produced), the `memories` dict, the
`user_memories` dict, and the `memories.json` file contents. -/
structure VStore where
  index : List (List ℚ)
  memories : List (String × MemoryEntry)
  user_memories : List (String × List String)
  file : Option SavedData
deriving Repr, DecidableEq

/-- Fresh store (`__init__` with no data on disk). -/
def VStore.empty : VStore := ⟨[], [], [], none⟩

/-- The serialisation `_save_store` writes to `memories.json`. -/
def serializeStore (s : VStore) : SavedData :=
  ⟨s.memories.map (fun p => (p.1, storedOfEntry p.2)), s.user_memories⟩

/-- Effect of `_save_store` on the state: the current dicts are serialised
to the file (the FAISS index is also written to its own file, which the
claims do not concern). -/
def saveStore (s : VStore) : VStore := { s with file := some (serializeStore s) }

/-- The reconstruction `_load_store` performs from `memories.json` data:
entries are parsed back into `MemoryEntry` values, `user_memories` is taken
verbatim. -/
def loadStoreData (d : SavedData) : List (String × MemoryEntry) × List (String × List String) :=
  (d.memories.map (fun p => (p.1, entryOfStored p.2)), d.user_memories)

/-- Embedding of `VectorMemoryStore.add_memory`.  External inputs are explicit: the
fresh `memory_id` (uuid4), the `embedding` computed by the sentence
encoder, the creation timestamp (pydantic default `datetime.now()`), and
`nrm` standing for `faiss.normalize_L2` applied before `index.add`. -/
def addMemory (nrm : List ℚ → List ℚ) (s : VStore) (memory_id user_id content memory_type : String)
    (metadata : List (String × String)) (importance : ℚ) (embedding : List ℚ)
    (created_at : Int) : VStore × String :=
  let memory : MemoryEntry :=
    ⟨memory_id, user_id, content, memory_type, metadata, embedding, created_at, importance⟩
  let memories := dinsert memory_id memory s.memories
  let ulist := (dlookup user_id s.user_memories).getD []
  let user_memories := dinsert user_id (ulist ++ [memory_id]) s.user_memories
  let index := s.index ++ [nrm embedding]
  (saveStore ⟨index, memories, user_memories, s.file⟩, memory_id)

/-- Embedding of `VectorMemoryStore.update_memory_importance`. -/
def updateMemoryImportance (s : VStore) (memory_id : String) (importance : ℚ) : VStore :=
  match dlookup memory_id s.memories with
  | some m =>
    saveStore { s with memories := dinsert memory_id { m with importance := importance } s.memories }
  | none => s

/-- Embedding of `VectorMemoryStore.delete_memory`: removes the entry from `memories`
and the id from the owning user list, saves, and (per the comment in the source)
leaves the FAISS index untouched. -/
def deleteMemory (s : VStore) (memory_id user_id : String) : VStore :=
  let ulist := (dlookup user_id s.user_memories).getD []
  if (dlookup memory_id s.memories).isSome && ulist.contains memory_id then
    saveStore { s with
      memories := derase memory_id s.memories,
      user_memories := dinsert user_id (removeFirst memory_id ulist) s.user_memories }
  else s

/-- The sort key comparison underlying
`user_memories.sort(key=lambda m: (m.created_at, m.importance), reverse=True)`:
Python tuple order on `(created_at, importance)`. -/
def memKeyLe (a b : MemoryEntry) : Bool :=
  decide (a.created_at < b.created_at ∨ (a.created_at = b.created_at ∧ a.importance ≤ b.importance))

/-- Descending stable sort, as `list.sort(key=..., reverse=True)`. -/
def sortDesc (ms : List MemoryEntry) : List MemoryEntry :=
  ms.mergeSort (fun a b => memKeyLe b a)

/-- Embedding of `VectorMemoryStore.get_user_context`. -/
def getUserContext (s : VStore) (user_id : String) (context_window : Nat) : List MemoryEntry :=
  match dlookup user_id s.user_memories with
  | none => []
  | some ids =>
    (sortDesc (ids.filterMap (fun mid => dlookup mid s.memories))).take context_window

/-- Embedding of `VectorMemoryStore.get_memory_by_id`. -/
def getMemoryById (s : VStore) (memory_id : String) : Option MemoryEntry :=
  dlookup memory_id s.memories

/-- Python list indexing `l[i]` with an `int` index: nonnegative indexes
from the front, negative from the back (out of range gives `none`; the
caller in `search_memories` only ever passes FAISS row numbers, which are
`-1` or nonnegative). -/
def pyGet (l : List String) (i : Int) : Option String :=
  if 0 ≤ i then l[i.toNat]?
  else if (-i).toNat ≤ l.length then l[l.length - (-i).toNat]? else none

/-- The positional resolution step of `search_memories`:
`memory_id = list(self.memories.keys())[idx] if idx < len(self.memories) else None`. -/
def resolveIdx (s : VStore) (idx : Int) : Option String :=
  if idx < (s.memories.length : Int) then pyGet (dkeys s.memories) idx else none

/-- The filter `if memory_types and memory.type not in memory_types` of
`search_memories` (an empty list is falsy, so it does not filter). -/
def typeFilteredOut (memory_types : Option (List String)) (t : String) : Bool :=
  match memory_types with
  | some ts => !ts.isEmpty && !(ts.contains t)
  | none => false

/-- The result loop of `search_memories` over the FAISS row numbers. -/
def searchLoop (s : VStore) (user_ids : List String) (memory_types : Option (List String))
    (top_k : Nat) : List Int → List MemoryEntry → List MemoryEntry
  | [], results => results
  | idx :: rest, results =>
    if idx = -1 then searchLoop s user_ids memory_types top_k rest results
    else
      match resolveIdx s idx with
      | none => searchLoop s user_ids memory_types top_k rest results
      | some mid =>
        if mid ≠ "" && user_ids.contains mid then
          match dlookup mid s.memories with
          | none => searchLoop s user_ids memory_types top_k rest results
          | some memory =>
            if typeFilteredOut memory_types memory.type then
              searchLoop s user_ids memory_types top_k rest results
            else
              let results2 := results ++ [memory]
              if top_k ≤ results2.length then results2
              else searchLoop s user_ids memory_types top_k rest results2
        else searchLoop s user_ids memory_types top_k rest results

/-- Embedding of `VectorMemoryStore.search_memories`.  The query embedding and the FAISS
nearest-neighbour search are external; `rows` is the row-number list FAISS
returns for the query. -/
def searchMemories (s : VStore) (user_id : String) (top_k : Nat)
    (memory_types : Option (List String)) (rows : List Int) : List MemoryEntry :=
  match dlookup user_id s.user_memories with
  | none => []
  | some ids => if ids.isEmpty then [] else searchLoop s ids memory_types top_k rows []

/-! ## Operation traces over the store -/

/-- One call to a mutating method of `VectorMemoryStore`. -/
inductive Op where
  | add (memory_id user_id content memory_type : String) (metadata : List (String × String))
        (importance : ℚ) (embedding : List ℚ) (created_at : Int)
  | update (memory_id : String) (importance : ℚ)
  | del (memory_id user_id : String)
deriving Repr, DecidableEq

/-- Apply one operation to the store (`nrm` is the external
`faiss.normalize_L2`). -/
def applyOp (nrm : List ℚ → List ℚ) (s : VStore) : Op → VStore
  | .add mid uid c mt md imp emb ca => (addMemory nrm s mid uid c mt md imp emb ca).1
  | .update mid imp => updateMemoryImportance s mid imp
  | .del mid uid => deleteMemory s mid uid

/-- Run a trace of operations from a given state. -/
def runOpsFrom (nrm : List ℚ → List ℚ) (s : VStore) : List Op → VStore
  | [] => s
  | op :: rest => runOpsFrom nrm (applyOp nrm s op) rest

/-- Run a trace of operations from the empty store. -/
def runOps (nrm : List ℚ → List ℚ) (ops : List Op) : VStore := runOpsFrom nrm VStore.empty ops

/-- Number of `add_memory` calls in a trace. -/
def countAdds : List Op → Nat
  | [] => 0
  | .add _ _ _ _ _ _ _ _ :: rest => countAdds rest + 1
  | .update _ _ :: rest => countAdds rest
  | .del _ _ :: rest => countAdds rest

/-- Owner of each FAISS index row: the memory ids of the `add_memory` calls
in trace order (row `i` of the index holds the vector stored by the
`i`-th add). -/
def rowOwners : List Op → List String
  | [] => []
  | .add mid _ _ _ _ _ _ _ :: rest => mid :: rowOwners rest
  | .update _ _ :: rest => rowOwners rest
  | .del _ _ :: rest => rowOwners rest

/-- Freshness of the uuid4 ids along a trace: each `add_memory` call uses a
`memory_id` not already present in `memories` (uuid4 collisions never
happen). -/
def traceOK (nrm : List ℚ → List ℚ) (s : VStore) : List Op → Bool
  | [] => true
  | op :: rest =>
    (match op with
     | .add mid _ _ _ _ _ _ _ => (dlookup mid s.memories).isNone
     | _ => true) && traceOK nrm (applyOp nrm s op) rest

/-- Consistency correspondence between a `memories` dict and a
`user_memories` dict: key uniqueness of the two dicts and of each per-user
id list, every listed id resolving to an entry of that user carrying its
own key as `id`, and every entry listed under its own user. -/
def DictInv (mems : List (String × MemoryEntry)) (ums : List (String × List String)) : Prop :=
  (dkeys mems).Nodup ∧
  (dkeys ums).Nodup ∧
  (∀ u ids, dlookup u ums = some ids →
     ids.Nodup ∧ ∀ mid ∈ ids, ∃ m, dlookup mid mems = some m ∧ m.user_id = u ∧ m.id = mid) ∧
  (∀ mid m, dlookup mid mems = some m →
     m.id = mid ∧ ∃ ids, dlookup m.user_id ums = some ids ∧ mid ∈ ids)

/-- Consistency correspondence between `memories` and `user_memories`
maintained by the store. -/
def StoreInv (s : VStore) : Prop := DictInv s.memories s.user_memories

/-! ## Memory manager cleanup (`memory_manager.py`) -/

/-- The deletion predicate of `MemoryManager.cleanup_old_memories`: delete
old, low-importance memories that are neither goal updates nor insights. -/
def shouldDelete (cutoff : Int) (m : MemoryEntry) : Bool :=
  decide (m.created_at < cutoff) && decide (m.importance < 7/10) &&
    !(["goal_update", "insight"].contains m.type)

/-- The deletion loop of `cleanup_old_memories` over the considered
memories, threading the store and counting deletions. -/
def cleanupLoop (cutoff : Int) (user_id : String) : List MemoryEntry → VStore → VStore × Nat
  | [], s => (s, 0)
  | m :: rest, s =>
    if shouldDelete cutoff m then
      let r := cleanupLoop cutoff user_id rest (deleteMemory s m.id user_id)
      (r.1, r.2 + 1)
    else cleanupLoop cutoff user_id rest s

/-- Seconds per day, fixing the time unit of `timedelta(days=...)`. -/
def daySeconds : Int := 86400

/-- Embedding of `MemoryManager.cleanup_old_memories`: the cutoff is
`datetime.now() - timedelta(days=retention_days)` and the considered
memories are `get_user_context(user_id, context_window=1000)`. -/
def cleanupOldMemories (s : VStore) (user_id : String) (now retention_days : Int) :
    VStore × Nat :=
  let cutoff := now - retention_days * daySeconds
  cleanupLoop cutoff user_id (getUserContext s user_id 1000) s

/-! ## Task planner heuristics (`task_planner.py`) -/

/-- Software development keywords of `_categorize_goal`. -/
def softwareKeywords : List String := ["developer", "programming", "coding", "software", "web", "app"]

/-- Data science keywords of `_categorize_goal`. -/
def dataKeywords : List String := ["data", "analytics", "machine learning", "ai", "statistics"]

/-- Product management keywords of `_categorize_goal`. -/
def productKeywords : List String := ["product", "manager", "strategy", "roadmap", "stakeholder"]

/-- Marketing keywords of `_categorize_goal`. -/
def marketingKeywords : List String := ["marketing", "digital", "social media", "content", "brand"]

/-- Sales keywords of `_categorize_goal`. -/
def salesKeywords : List String := ["sales", "business development", "account", "revenue"]

/-- Python `keyword in description_lower` on the lowered description. -/
def keywordOccurs (descLower : List Char) (kw : String) : Bool := hasSub descLower kw.data

/-- Embedding of `TaskPlanner._categorize_goal`: lowercase the description and walk the
if/elif chain of keyword lists. -/
def categorizeGoal (description : String) : String :=
  let d := pyLower description
  if softwareKeywords.any (keywordOccurs d) then "software_developer"
  else if dataKeywords.any (keywordOccurs d) then "data_scientist"
  else if productKeywords.any (keywordOccurs d) then "product_manager"
  else if marketingKeywords.any (keywordOccurs d) then "marketing"
  else if salesKeywords.any (keywordOccurs d) then "sales"
  else "general"

/-- The category order fixed by the if/elif chain of `_categorize_goal`. -/
def categoryTable : List (String × List String) :=
  [("software_developer", softwareKeywords), ("data_scientist", dataKeywords),
   ("product_manager", productKeywords), ("marketing", marketingKeywords),
   ("sales", salesKeywords)]

/-- Modelled from the wording of the claim (spec side of the refinement):
return the first category of `categoryTable` one of whose keywords occurs
as a substring of the lowered description, and "general" when none does. -/
def firstMatchingCategory (description : String) : String :=
  let d := pyLower description
  match categoryTable.find? (fun p => p.2.any (keywordOccurs d)) with
  | some p => p.1
  | none => "general"

/-- Value of one complexity factor as `_calculate_complexity_score` sees
it: a string, a list (the dependencies), or anything else. -/
inductive FactorVal where
  | fstr (v : String)
  | flist (l : List String)
  | fother
deriving Repr, DecidableEq

/-- The `scores` table of `_calculate_complexity_score`. -/
def scoresTable : List (String × ℚ) :=
  [("low", 2/10), ("medium", 5/10), ("high", 8/10), ("unknown", 5/10)]

/-- Per-factor score: `scores.get(value, 0.5)` for strings,
`min(0.8, len(value) * 0.1)` for lists, `0.5` otherwise. -/
def factorScore : FactorVal → ℚ
  | .fstr v => (dlookup v scoresTable).getD (5/10)
  | .flist l => min (8/10) ((l.length : ℚ) * (1/10))
  | .fother => 5/10

/-- The `weights` table of `_calculate_complexity_score`. -/
def weightsTable : List (String × ℚ) :=
  [("skill_gap", 3/10), ("time_constraint", 2/10), ("resource_requirements", 2/10),
   ("dependencies", 3/10)]

/-- Embedding of `TaskPlanner._calculate_complexity_score`: fold over the factors dict,
adding `weights[factor] * factor_score` for the factors with a weight. -/
def calculateComplexityScore (factors : List (String × FactorVal)) : ℚ :=
  factors.foldl (fun total p =>
    match dlookup p.1 weightsTable with
    | some w => total + w * factorScore p.2
    | none => total) 0

/-- The `complexity_factors` dict exactly as `_analyze_goal_complexity`
builds it: three string factors and the dependency list. -/
def complexityFactorsDict (skill_gap time_constraint resource_requirements : String)
    (dependencies : List String) : List (String × FactorVal) :=
  [("skill_gap", .fstr skill_gap), ("time_constraint", .fstr time_constraint),
   ("resource_requirements", .fstr resource_requirements), ("dependencies", .flist dependencies)]

/-- The `PlanningStrategy` enum. -/
inductive PlanningStrategy where
  | linear
  | parallel
  | milestone
  | adaptive
deriving Repr, DecidableEq

/-- Embedding of `TaskPlanner._select_optimal_strategy`, as a function of the complexity
score and the `time_constraint` factor it reads from the analysis. -/
def selectOptimalStrategy (complexity : ℚ) (time_constraint : FactorVal) : PlanningStrategy :=
  if 7/10 < complexity then .milestone
  else if time_constraint = .fstr "high" then .parallel
  else if complexity < 3/10 then .linear
  else .milestone

/-! ## AI chat fallback (`services/ai_chat.py`) -/

/-- The positive-sentiment fallback string of `_get_fallback_response`. -/
def positiveFallback : String :=
  "I\x27m so glad you\x27re feeling good! It\x27s wonderful to hear positive thoughts. How can I help you maintain this positive mood?"

/-- The negative-sentiment fallback string of `_get_fallback_response`. -/
def negativeFallback : String :=
  "I hear that you\x27re going through a tough time, and I want you to know that your feelings are valid. I\x27m here to support you. What would be most helpful right now?"

/-- The neutral fallback string of `_get_fallback_response`. -/
def neutralFallback : String :=
  "Thank you for sharing with me. I\x27m here to listen and provide support. What\x27s on your mind today?"

/-- The `fallback_responses` dict. -/
def fallbackResponses : List (String × String) :=
  [("positive", positiveFallback), ("negative", negativeFallback), ("neutral", neutralFallback)]

/-- Embedding of `AIChat._get_fallback_response`:
`fallback_responses.get(sentiment_label, fallback_responses[neutral])`. -/
def getFallbackResponse (sentiment_label : String) : String :=
  (dlookup sentiment_label fallbackResponses).getD neutralFallback

/-- The `empathetic_starters` lists. -/
def positiveStarters : List String :=
  ["I\x27m so glad to hear that! ", "That sounds wonderful! ",
   "It\x27s great that you\x27re feeling positive! "]

/-- The negative starters list. -/
def negativeStarters : List String :=
  ["I hear that you\x27re going through a difficult time. ", "That sounds really challenging. ",
   "I understand this must be hard for you. "]

/-- The neutral starters list. -/
def neutralStarters : List String :=
  ["I appreciate you sharing that with me. ", "Thank you for telling me about this. ",
   "I\x27m here to listen and support you. "]

/-- The `empathetic_starters` dict. -/
def empatheticStarters : List (String × List String) :=
  [("positive", positiveStarters), ("negative", negativeStarters), ("neutral", neutralStarters)]

/-- The `supportive_endings` list. -/
def supportiveEndings : List String :=
  [" How can I support you further?", " What would be most helpful for you right now?",
   " Is there anything specific you\x27d like to talk about?",
   " I\x27m here for you whenever you need to talk."]

/-- Embedding of `random.choice` with its random draw made explicit as an index. -/
def pyChoice (l : List String) (i : Nat) : String := (l[i % l.length]?).getD ""

/-- Embedding of `AIChat._add_empathetic_framing` (the two random choices enter as
indices). -/
def addEmpatheticFraming (response sentiment_label : String) (starterChoice endingChoice : Nat) :
    String :=
  let starters := (dlookup sentiment_label empatheticStarters).getD neutralStarters
  let starter := pyChoice starters starterChoice
  let ending := pyChoice supportiveEndings endingChoice
  let r := String.mk (pyStrip response.data)
  let r := if r = "" then "I\x27m here to listen and support you." else r
  starter ++ r ++ ending

/-- Embedding of `AIChat.generate_response`.  The whole model-generation path (context
preparation, tokenisation, `model.generate`, decoding) is external and
enters as `genOutcome`: `Except.ok` with the decoded response when it
succeeds, `Except.error` when anything in the `try` block raises.  The
`except` branch logs and returns the sentiment fallback. -/
def generateResponse (genOutcome : Except String String) (sentiment_label : String)
    (starterChoice endingChoice : Nat) : String :=
  match genOutcome with
  | .ok response =>
    String.mk (pyStrip (addEmpatheticFraming response sentiment_label starterChoice endingChoice).data)
  | .error _ => getFallbackResponse sentiment_label

/-! ## Mood logging route (`routes/mood.py`) -/

/-- JSON values as Flask delivers them to the handler (Python floats stand
in as rationals). -/
inductive JVal where
  | jnull
  | jbool (b : Bool)
  | jint (n : Int)
  | jfloat (q : ℚ)
  | jstr (v : String)
  | jarr (n : Nat)
  | jobj (n : Nat)

/-- Python truthiness of a JSON value (arrays and objects carry just their
size, which is all truthiness needs). -/
def truthy : JVal → Bool
  | .jnull => false
  | .jbool b => b
  | .jint n => decide (n ≠ 0)
  | .jfloat q => decide (q ≠ 0)
  | .jstr v => decide (v ≠ "")
  | .jarr n => decide (n ≠ 0)
  | .jobj n => decide (n ≠ 0)

/-- Python `isinstance(v, int)`: true for ints and for bools (bool is a
subclass of int). -/
def isInstInt : JVal → Bool
  | .jint _ => true
  | .jbool _ => true
  | _ => false

/-- Integer value of a JSON value where `isInstInt` holds
(`True == 1`, `False == 0`). -/
def intValue : JVal → Int
  | .jint n => n
  | .jbool b => if b then 1 else 0
  | _ => 0

/-- A row of the `moods` table as `log_mood` creates it (the `id` and
`date_recorded` columns are filled by the database). -/
structure MoodRow where
  user_id : String
  score : Int
  notes : String
  tags : JVal

/-- The `notes` handling of `log_mood`: `data.get(notes, empty).strip()`.
Absent gives the empty default; a JSON string is stripped; any other value
has no `strip` method, so the call raises (modelled as `none`, which the
handler turns into the rollback/500 path). -/
def notesField (data : List (String × JVal)) : Option String :=
  match dlookup "notes" data with
  | none => some ""
  | some (.jstr v) => some (String.mk (pyStrip v.data))
  | some _ => none

/-- Embedding of `log_mood` (POST `/api/mood/log`).  `body` is the parsed JSON (`none`
when `request.get_json()` yields no dict, making the first attribute access
raise), `commitFails` says whether `db.session.commit()` raises, `rows` is
the committed `moods` table restricted to what this handler can touch.
Returns the HTTP status and the table afterwards; every raising path is
caught, rolled back and answered with 500. -/
def logMood (user_id : String) (body : Option (List (String × JVal))) (commitFails : Bool)
    (rows : List MoodRow) : Nat × List MoodRow :=
  match body with
  | none => (500, rows)
  | some data =>
    let scoreOpt := dlookup "score" data
    if !(match scoreOpt with | some v => truthy v | none => false)
        || !(match scoreOpt with | some v => isInstInt v | none => false) then
      (400, rows)
    else
      match scoreOpt with
      | none => (400, rows)
      | some v =>
        let score := intValue v
        if score < 1 || 5 < score then (400, rows)
        else
          match notesField data with
          | none => (500, rows)
          | some notes =>
            let tags := (dlookup "tags" data).getD (JVal.jstr "")
            if commitFails then (500, rows)
            else (201, rows ++ [⟨user_id, score, notes, tags⟩])

/-- A two-add/one-delete trace used to exhibit the index drift: two
memories for user u are added (rows 0 and 1 of the FAISS index), then the
first is deleted. -/
def demoTrace : List Op :=
  [Op.add "m1" "u" "c1" "conversation" [] 0 [(1 : ℚ)] 0,
   Op.add "m2" "u" "c2" "conversation" [] 0 [(2 : ℚ)] 1,
   Op.del "m1" "u"]

/-! ## Dictionary lemmas -/

theorem dlookup_dinsert_self {β : Type} (k : String) (v : β) (d : List (String × β)) :
    dlookup k (dinsert k v d) = some v := by
  induction d with
  | nil => simp [dinsert, dlookup]
  | cons p rest ih =>
    by_cases h : p.1 = k
    · simp [dinsert, h, dlookup]
    · simp [dinsert, h, dlookup, ih]

theorem dlookup_dinsert_ne {β : Type} (k k2 : String) (v : β) (d : List (String × β))
    (h : k2 ≠ k) : dlookup k2 (dinsert k v d) = dlookup k2 d := by
  have hk : ¬(k = k2) := fun hh => h hh.symm
  induction d with
  | nil => simp [dinsert, dlookup, hk]
  | cons p rest ih =>
    by_cases hp : p.1 = k
    · rw [dinsert, if_pos hp, dlookup, dlookup]
      rw [hp]
      rw [if_neg hk, if_neg hk]
    · rw [dinsert, if_neg hp, dlookup, dlookup]
      by_cases hp2 : p.1 = k2
      · rw [if_pos hp2, if_pos hp2]
      · rw [if_neg hp2, if_neg hp2, ih]

theorem dlookup_eq_none_iff {β : Type} (k : String) (d : List (String × β)) :
    dlookup k d = none ↔ k ∉ dkeys d := by
  induction d with
  | nil => simp [dlookup, dkeys]
  | cons p rest ih =>
    by_cases h : p.1 = k
    · simp [dlookup, h, dkeys]
    · have hk : ¬(k = p.1) := fun hh => h hh.symm
      simp [dlookup, h, dkeys, ih, hk]

theorem mem_dkeys_of_dlookup {β : Type} {k : String} {v : β} {d : List (String × β)}
    (h : dlookup k d = some v) : k ∈ dkeys d := by
  by_contra hk
  rw [← dlookup_eq_none_iff] at hk
  rw [h] at hk
  exact Option.noConfusion hk

theorem dkeys_dinsert_mem {β : Type} (k : String) (v : β) (d : List (String × β))
    (h : k ∈ dkeys d) : dkeys (dinsert k v d) = dkeys d := by
  induction d with
  | nil => simp [dkeys] at h
  | cons p rest ih =>
    by_cases hp : p.1 = k
    · simp [dinsert, hp, dkeys]
    · have hmem : k ∈ dkeys rest := by
        rcases List.mem_cons.mp h with hh | hh
        · exact absurd hh.symm hp
        · exact hh
      rw [dinsert, if_neg hp]
      show p.1 :: dkeys (dinsert k v rest) = p.1 :: dkeys rest
      rw [ih hmem]

theorem dkeys_dinsert_new {β : Type} (k : String) (v : β) (d : List (String × β))
    (h : k ∉ dkeys d) : dkeys (dinsert k v d) = dkeys d ++ [k] := by
  induction d with
  | nil => simp [dinsert, dkeys]
  | cons p rest ih =>
    have hp : ¬(p.1 = k) := by
      intro hh
      apply h
      show k ∈ p.1 :: dkeys rest
      rw [← hh]
      exact List.mem_cons_self p.1 (dkeys rest)
    have hrest : k ∉ dkeys rest := by
      intro hh
      apply h
      show k ∈ p.1 :: dkeys rest
      exact List.mem_cons_of_mem p.1 hh
    rw [dinsert, if_neg hp]
    show p.1 :: dkeys (dinsert k v rest) = (p.1 :: dkeys rest) ++ [k]
    rw [ih hrest]
    rfl

theorem derase_sublist {β : Type} (k : String) (d : List (String × β)) :
    (derase k d).Sublist d := by
  induction d with
  | nil => simp [derase]
  | cons p rest ih =>
    by_cases h : p.1 = k
    · rw [derase, if_pos h]
      exact List.sublist_cons_self p rest
    · rw [derase, if_neg h]
      exact ih.cons₂ p

theorem dlookup_derase_self {β : Type} (k : String) (d : List (String × β))
    (h : (dkeys d).Nodup) : dlookup k (derase k d) = none := by
  induction d with
  | nil => simp [derase, dlookup]
  | cons p rest ih =>
    simp only [dkeys, List.map_cons, List.nodup_cons] at h
    by_cases hp : p.1 = k
    · rw [derase, if_pos hp, dlookup_eq_none_iff]
      rw [← hp]
      exact h.1
    · rw [derase, if_neg hp, dlookup, if_neg hp]
      exact ih h.2

theorem dlookup_derase_ne {β : Type} (k k2 : String) (d : List (String × β))
    (h : k2 ≠ k) : dlookup k2 (derase k d) = dlookup k2 d := by
  induction d with
  | nil => simp [derase]
  | cons p rest ih =>
    by_cases hp : p.1 = k
    · have hne : ¬(p.1 = k2) := by
        rw [hp]
        exact fun hh => h hh.symm
      rw [derase, if_pos hp, dlookup, if_neg hne]
    · rw [derase, if_neg hp, dlookup, dlookup]
      by_cases hp2 : p.1 = k2
      · rw [if_pos hp2, if_pos hp2]
      · rw [if_neg hp2, if_neg hp2, ih]

theorem removeFirst_sublist (x : String) (l : List String) : (removeFirst x l).Sublist l := by
  induction l with
  | nil => simp [removeFirst]
  | cons y rest ih =>
    by_cases h : y = x
    · rw [removeFirst, if_pos h]
      exact List.sublist_cons_self y rest
    · rw [removeFirst, if_neg h]
      exact ih.cons₂ y

theorem mem_removeFirst_of_ne {a x : String} (l : List String) (h : a ≠ x) :
    a ∈ removeFirst x l ↔ a ∈ l := by
  induction l with
  | nil => simp [removeFirst]
  | cons y rest ih =>
    by_cases hy : y = x
    · rw [removeFirst, if_pos hy]
      constructor
      · exact fun hm => List.mem_cons_of_mem y hm
      · intro hm
        rcases List.mem_cons.mp hm with hh | hh
        · exact absurd (hh.trans hy) h
        · exact hh
    · rw [removeFirst, if_neg hy]
      constructor
      · intro hm
        rcases List.mem_cons.mp hm with hh | hh
        · exact hh ▸ List.mem_cons_self y rest
        · exact List.mem_cons_of_mem y (ih.mp hh)
      · intro hm
        rcases List.mem_cons.mp hm with hh | hh
        · exact hh ▸ List.mem_cons_self y (removeFirst x rest)
        · exact List.mem_cons_of_mem y (ih.mpr hh)

theorem not_mem_removeFirst {x : String} {l : List String} (h : l.Nodup) :
    x ∉ removeFirst x l := by
  induction l with
  | nil => simp [removeFirst]
  | cons y rest ih =>
    simp only [List.nodup_cons] at h
    by_cases hy : y = x
    · rw [removeFirst, if_pos hy]
      rw [← hy]
      exact h.1
    · rw [removeFirst, if_neg hy]
      intro hmem
      rcases List.mem_cons.mp hmem with hh | hh
      · exact hy hh.symm
      · exact ih h.2 hh

theorem timeOfIso_isoOfTime (t : Int) : timeOfIso (isoOfTime t) = t := by
  simp only [isoOfTime, timeOfIso, Nat.ofDigits_digits]
  by_cases h : t < 0
  · rw [if_pos (decide_eq_true h)]
    omega
  · rw [if_neg (by simpa using h)]
    omega

theorem entryOfStored_storedOfEntry (m : MemoryEntry) : entryOfStored (storedOfEntry m) = m := by
  simp [entryOfStored, storedOfEntry, timeOfIso_isoOfTime]

/-! ## Helper lemmas for the planner and backend claims -/

theorem factorScore_le (v : FactorVal) : factorScore v ≤ 8/10 := by
  cases v with
  | fstr v =>
    simp only [factorScore, scoresTable, dlookup]
    split_ifs <;> norm_num
  | flist l =>
    exact min_le_left _ _
  | fother =>
    norm_num [factorScore]

theorem truthy_of_posInt {v : JVal} (hint : isInstInt v = true) (hpos : 1 ≤ intValue v) :
    truthy v = true := by
  cases v with
  | jbool b =>
    cases b with
    | true => rfl
    | false => simp [intValue] at hpos
  | jint n =>
    simp only [intValue] at hpos
    simp only [truthy, decide_eq_true_eq]
    omega
  | jnull => simp [isInstInt] at hint
  | jfloat q => simp [isInstInt] at hint
  | jstr v => simp [isInstInt] at hint
  | jarr n => simp [isInstInt] at hint
  | jobj n => simp [isInstInt] at hint

/-! ## Claim theorems -/

/-- C6: `_categorize_goal` lowercases the description and returns the first
category of the fixed order (software_developer, data_scientist,
product_manager, marketing, sales) one of whose hard-coded keywords occurs
as a substring, returning "general" when no keyword occurs; any description
whose lowering contains "developer" yields "software_developer". -/
theorem claim_C6 :
    (∀ description, categorizeGoal description = firstMatchingCategory description) ∧
    (∀ description, hasSub (pyLower description) "developer".data = true →
      categorizeGoal description = "software_developer") ∧
    (∀ description,
      (∀ p ∈ categoryTable, ∀ kw ∈ p.2, keywordOccurs (pyLower description) kw = false) →
      categorizeGoal description = "general") := by
  refine ⟨fun d => ?_, fun d h => ?_, fun d h => ?_⟩
  · simp only [categorizeGoal, firstMatchingCategory, categoryTable, List.find?]
    by_cases h1 : softwareKeywords.any (keywordOccurs (pyLower d)) = true <;>
      by_cases h2 : dataKeywords.any (keywordOccurs (pyLower d)) = true <;>
        by_cases h3 : productKeywords.any (keywordOccurs (pyLower d)) = true <;>
          by_cases h4 : marketingKeywords.any (keywordOccurs (pyLower d)) = true <;>
            by_cases h5 : salesKeywords.any (keywordOccurs (pyLower d)) = true <;>
              simp [h1, h2, h3, h4, h5]
  · have hany : softwareKeywords.any (keywordOccurs (pyLower d)) = true := by
      simp only [softwareKeywords, List.any_cons, Bool.or_eq_true]
      exact Or.inl h
    simp [categorizeGoal, hany]
  · have hfalse : ∀ kws : List String, ("x", kws) ∈ categoryTable ∨ True →
      (∀ kw ∈ kws, keywordOccurs (pyLower d) kw = false) →
      kws.any (keywordOccurs (pyLower d)) = false := by
      intro kws _ hall
      rw [List.any_eq_false]
      intro kw hkw
      rw [hall kw hkw]
      exact Bool.false_ne_true
    have h1 : softwareKeywords.any (keywordOccurs (pyLower d)) = false :=
      hfalse _ (Or.inr trivial) (h ("software_developer", softwareKeywords) (by simp [categoryTable]))
    have h2 : dataKeywords.any (keywordOccurs (pyLower d)) = false :=
      hfalse _ (Or.inr trivial) (h ("data_scientist", dataKeywords) (by simp [categoryTable]))
    have h3 : productKeywords.any (keywordOccurs (pyLower d)) = false :=
      hfalse _ (Or.inr trivial) (h ("product_manager", productKeywords) (by simp [categoryTable]))
    have h4 : marketingKeywords.any (keywordOccurs (pyLower d)) = false :=
      hfalse _ (Or.inr trivial) (h ("marketing", marketingKeywords) (by simp [categoryTable]))
    have h5 : salesKeywords.any (keywordOccurs (pyLower d)) = false :=
      hfalse _ (Or.inr trivial) (h ("sales", salesKeywords) (by simp [categoryTable]))
    simp [categorizeGoal, h1, h2, h3, h4, h5]

/-- C6 witness: a concrete description containing "developer" (among other
words) is categorised software_developer, and both hypotheses of the
theorem are checked at concrete inputs. -/
theorem claim_C6_witness :
    categorizeGoal "Senior Developer of sales and marketing teams" = "software_developer" ∧
    categorizeGoal "climb everest" = "general" :=
  ⟨claim_C6.2.1 "Senior Developer of sales and marketing teams" (by decide),
   claim_C6.2.2 "climb everest" (by decide)⟩

/-- C7: the complexity score of the factors dict built by
`_analyze_goal_complexity` is the weighted sum
`0.3*s(skill_gap) + 0.2*s(time_constraint) + 0.2*s(resources) + 0.3*s(deps)`;
`s` maps "low" to 0.2, "medium" to 0.5, "high" to 0.8, any other string to
0.5, and a list of n dependencies to `min(0.8, 0.1*n)`; the score never
exceeds 0.8; and `_select_optimal_strategy` returns MILESTONE above 0.7,
else PARALLEL on a high time constraint, else LINEAR below 0.3, else
MILESTONE. -/
theorem claim_C7 :
    (∀ a b c dl, calculateComplexityScore (complexityFactorsDict a b c dl) =
      3/10 * factorScore (.fstr a) + 2/10 * factorScore (.fstr b) +
      2/10 * factorScore (.fstr c) + 3/10 * factorScore (.flist dl)) ∧
    factorScore (.fstr "low") = 2/10 ∧
    factorScore (.fstr "medium") = 5/10 ∧
    factorScore (.fstr "high") = 8/10 ∧
    (∀ v, v ≠ "low" → v ≠ "medium" → v ≠ "high" → factorScore (.fstr v) = 5/10) ∧
    (∀ l : List String, factorScore (.flist l) = min (8/10) ((l.length : ℚ) * (1/10))) ∧
    (∀ a b c dl, calculateComplexityScore (complexityFactorsDict a b c dl) ≤ 8/10) ∧
    (∀ q tc,
      (7/10 < q → selectOptimalStrategy q tc = .milestone) ∧
      (¬(7/10 < q) → tc = .fstr "high" → selectOptimalStrategy q tc = .parallel) ∧
      (¬(7/10 < q) → tc ≠ .fstr "high" → q < 3/10 → selectOptimalStrategy q tc = .linear) ∧
      (¬(7/10 < q) → tc ≠ .fstr "high" → ¬(q < 3/10) →
        selectOptimalStrategy q tc = .milestone)) := by
  have hsum : ∀ a b c dl, calculateComplexityScore (complexityFactorsDict a b c dl) =
      3/10 * factorScore (.fstr a) + 2/10 * factorScore (.fstr b) +
      2/10 * factorScore (.fstr c) + 3/10 * factorScore (.flist dl) := by
    intro a b c dl
    have w1 : dlookup "skill_gap" weightsTable = some (3/10) := rfl
    have w2 : dlookup "time_constraint" weightsTable = some (2/10) := rfl
    have w3 : dlookup "resource_requirements" weightsTable = some (2/10) := rfl
    have w4 : dlookup "dependencies" weightsTable = some (3/10) := rfl
    simp only [calculateComplexityScore, complexityFactorsDict, List.foldl, w1, w2, w3, w4]
    ring
  refine ⟨hsum, rfl, rfl, rfl,
    fun v h1 h2 h3 => ?_, fun l => rfl, fun a b c dl => ?_, fun q tc => ?_⟩
  · have e1 : ¬("low" = v) := fun hh => h1 hh.symm
    have e2 : ¬("medium" = v) := fun hh => h2 hh.symm
    have e3 : ¬("high" = v) := fun hh => h3 hh.symm
    by_cases e4 : "unknown" = v
    · simp [factorScore, scoresTable, dlookup, e1, e2, e3, e4]
    · simp [factorScore, scoresTable, dlookup, e1, e2, e3, e4]
  · rw [hsum]
    have b1 := factorScore_le (.fstr a)
    have b2 := factorScore_le (.fstr b)
    have b3 := factorScore_le (.fstr c)
    have b4 := factorScore_le (.flist dl)
    have p1 := mul_le_mul_of_nonneg_left b1 (by norm_num : (0:ℚ) ≤ 3/10)
    have p2 := mul_le_mul_of_nonneg_left b2 (by norm_num : (0:ℚ) ≤ 2/10)
    have p3 := mul_le_mul_of_nonneg_left b3 (by norm_num : (0:ℚ) ≤ 2/10)
    have p4 := mul_le_mul_of_nonneg_left b4 (by norm_num : (0:ℚ) ≤ 3/10)
    linarith
  · refine ⟨fun h => ?_, fun h htc => ?_, fun h htc hq => ?_, fun h htc hq => ?_⟩
    · rw [selectOptimalStrategy, if_pos h]
    · rw [selectOptimalStrategy, if_neg h, if_pos htc]
    · rw [selectOptimalStrategy, if_neg h, if_neg htc, if_pos hq]
    · rw [selectOptimalStrategy, if_neg h, if_neg htc, if_neg hq]

/-- C7 witness: the theorem instantiated at the factor values of a concrete
goal (high skill gap, high time pressure, medium resources, three
dependencies). -/
theorem claim_C7_witness :
    calculateComplexityScore (complexityFactorsDict "high" "high" "medium" ["a", "b", "c"]) =
      3/10 * (8/10) + 2/10 * (8/10) + 2/10 * (5/10) + 3/10 * (3/10) ∧
    factorScore (.fstr "weird") = 5/10 ∧
    calculateComplexityScore (complexityFactorsDict "high" "high" "medium" ["a", "b", "c"]) ≤
      8/10 ∧
    selectOptimalStrategy (65/100) (.fstr "high") = .parallel := by
  refine ⟨?_, ?_, claim_C7.2.2.2.2.2.2.1 "high" "high" "medium" ["a", "b", "c"], ?_⟩
  · rw [claim_C7.1 "high" "high" "medium" ["a", "b", "c"]]
    rw [claim_C7.2.2.2.1]
    rw [claim_C7.2.2.1]
    rw [claim_C7.2.2.2.2.2.1 ["a", "b", "c"]]
    norm_num [min_def]
  · exact claim_C7.2.2.2.2.1 "weird" (by decide) (by decide) (by decide)
  · exact (claim_C7.2.2.2.2.2.2.2 (65/100) (.fstr "high")).2.1 (by norm_num) rfl

/-- C8: `generate_response` is total; when the generation path raises, it
returns the fixed fallback selected by the sentiment label, with the
neutral fallback for any label other than positive/negative/neutral. -/
theorem claim_C8 :
    (∀ e sentiment_label i j,
      generateResponse (Except.error e) sentiment_label i j =
        getFallbackResponse sentiment_label) ∧
    getFallbackResponse "positive" = positiveFallback ∧
    getFallbackResponse "negative" = negativeFallback ∧
    getFallbackResponse "neutral" = neutralFallback ∧
    (∀ lab, lab ≠ "positive" → lab ≠ "negative" → lab ≠ "neutral" →
      getFallbackResponse lab = neutralFallback) := by
  refine ⟨fun e l i j => rfl, rfl, rfl, rfl, fun lab h1 h2 h3 => ?_⟩
  have e1 : ¬("positive" = lab) := fun hh => h1 hh.symm
  have e2 : ¬("negative" = lab) := fun hh => h2 hh.symm
  have e3 : ¬("neutral" = lab) := fun hh => h3 hh.symm
  simp [getFallbackResponse, fallbackResponses, dlookup, e1, e2, e3]

/-- C8 witness: a failing generation with an unrecognised sentiment label
gets the neutral fallback. -/
theorem claim_C8_witness :
    generateResponse (Except.error "model exploded") "angry" 0 0 = neutralFallback := by
  rw [claim_C8.1 "model exploded" "angry" 0 0]
  exact claim_C8.2.2.2.2 "angry" (by decide) (by decide) (by decide)

/-- C10: `log_mood` answers 400 and leaves the table unchanged when the
score is absent, falsy (hence also the int 0), not an int instance, or an
int outside 1..5; with an int score in 1..5 and no exception it appends
exactly one row for the authenticated user and answers 201; and on any
raising path (no JSON body, a non-string notes value, a failing commit) it
rolls back, leaving the table unchanged, and answers 500. -/
theorem claim_C10 :
    (∀ uid cf rows data, dlookup "score" data = none →
      logMood uid (some data) cf rows = (400, rows)) ∧
    (∀ uid cf rows data v, dlookup "score" data = some v → truthy v = false →
      logMood uid (some data) cf rows = (400, rows)) ∧
    (∀ uid cf rows data, dlookup "score" data = some (JVal.jint 0) →
      logMood uid (some data) cf rows = (400, rows)) ∧
    (∀ uid cf rows data v, dlookup "score" data = some v → isInstInt v = false →
      logMood uid (some data) cf rows = (400, rows)) ∧
    (∀ uid cf rows data v, dlookup "score" data = some v → isInstInt v = true →
      (intValue v < 1 ∨ 5 < intValue v) →
      logMood uid (some data) cf rows = (400, rows)) ∧
    (∀ uid rows data v notes, dlookup "score" data = some v → isInstInt v = true →
      1 ≤ intValue v → intValue v ≤ 5 → notesField data = some notes →
      logMood uid (some data) false rows =
        (201, rows ++ [⟨uid, intValue v, notes, (dlookup "tags" data).getD (JVal.jstr "")⟩])) ∧
    (∀ uid cf rows, logMood uid none cf rows = (500, rows)) ∧
    (∀ uid cf rows data v, dlookup "score" data = some v → isInstInt v = true →
      1 ≤ intValue v → intValue v ≤ 5 → notesField data = none →
      logMood uid (some data) cf rows = (500, rows)) ∧
    (∀ uid rows data v notes, dlookup "score" data = some v → isInstInt v = true →
      1 ≤ intValue v → intValue v ≤ 5 → notesField data = some notes →
      logMood uid (some data) true rows = (500, rows)) := by
  refine ⟨fun uid cf rows data h => ?_, fun uid cf rows data v h ht => ?_,
    fun uid cf rows data h => ?_, fun uid cf rows data v h hi => ?_,
    fun uid cf rows data v h hi hr => ?_, fun uid rows data v notes h hi h1 h5 hn => ?_,
    fun uid cf rows => rfl, fun uid cf rows data v h hi h1 h5 hn => ?_,
    fun uid rows data v notes h hi h1 h5 hn => ?_⟩
  · simp [logMood, h]
  · simp [logMood, h, ht]
  · simp [logMood, h, truthy]
  · simp [logMood, h, hi]
  · have ht : truthy v = true ∨ truthy v = false := by cases truthy v <;> simp
    rcases ht with ht | ht
    · have hcond : (intValue v < 1 || 5 < intValue v) = true := by
        rcases hr with hr | hr
        · exact Bool.or_eq_true_iff.mpr (Or.inl (decide_eq_true hr))
        · exact Bool.or_eq_true_iff.mpr (Or.inr (decide_eq_true hr))
      simp [logMood, h, ht, hi, hcond]
    · simp [logMood, h, ht]
  · have ht : truthy v = true := truthy_of_posInt hi h1
    have hc1 : ¬(intValue v < 1) := by omega
    have hc5 : ¬(5 < intValue v) := by omega
    simp [logMood, h, ht, hi, hc1, hc5, hn]
  · have ht : truthy v = true := truthy_of_posInt hi h1
    have hc1 : ¬(intValue v < 1) := by omega
    have hc5 : ¬(5 < intValue v) := by omega
    simp [logMood, h, ht, hi, hc1, hc5, hn]
  · have ht : truthy v = true := truthy_of_posInt hi h1
    have hc1 : ¬(intValue v < 1) := by omega
    have hc5 : ¬(5 < intValue v) := by omega
    simp [logMood, h, ht, hi, hc1, hc5, hn]

/-- C10 witness: concrete requests. A body with score 0 is rejected with
400 and no row; a body with score 4 and a notes string commits one row and
answers 201; a failing commit answers 500 with no row. -/
theorem claim_C10_witness :
    logMood "u7" (some [("score", JVal.jint 0)]) false [] = (400, []) ∧
    logMood "u7" (some [("score", JVal.jint 4), ("notes", JVal.jstr " fine ")]) false [] =
      (201, [⟨"u7", 4, "fine", JVal.jstr ""⟩]) ∧
    logMood "u7" (some [("score", JVal.jint 4), ("notes", JVal.jstr " fine ")]) true [] =
      (500, []) := by
  refine ⟨claim_C10.2.2.1 "u7" false [] [("score", JVal.jint 0)] rfl, ?_, ?_⟩
  · have h := claim_C10.2.2.2.2.2.1 "u7" []
      [("score", JVal.jint 4), ("notes", JVal.jstr " fine ")] (JVal.jint 4) "fine"
      rfl rfl (by decide) (by decide) rfl
    exact h
  · exact claim_C10.2.2.2.2.2.2.2.2 "u7" []
      [("score", JVal.jint 4), ("notes", JVal.jstr " fine ")] (JVal.jint 4) "fine"
      rfl rfl (by decide) (by decide) rfl

/-! ## Index and persistence lemmas -/

theorem contains_of_mem {a : String} {l : List String} (h : a ∈ l) : l.contains a = true :=
  List.elem_eq_true_of_mem h

theorem updateMemoryImportance_index (s : VStore) (mid : String) (imp : ℚ) :
    (updateMemoryImportance s mid imp).index = s.index := by
  rw [updateMemoryImportance]
  cases dlookup mid s.memories <;> rfl

theorem deleteMemory_index (s : VStore) (mid uid : String) :
    (deleteMemory s mid uid).index = s.index := by
  simp only [deleteMemory]
  split <;> rfl

theorem runOpsFrom_index_length (nrm : List ℚ → List ℚ) (ops : List Op) :
    ∀ s : VStore, (runOpsFrom nrm s ops).index.length = s.index.length + countAdds ops := by
  induction ops with
  | nil =>
    intro s
    simp [runOpsFrom, countAdds]
  | cons op rest ih =>
    intro s
    rw [runOpsFrom, ih]
    cases op with
    | add mid uid c mt md imp emb ca =>
      have hidx : (applyOp nrm s (.add mid uid c mt md imp emb ca)).index =
          s.index ++ [nrm emb] := rfl
      rw [hidx]
      simp [countAdds]
      omega
    | update mid imp =>
      show (updateMemoryImportance s mid imp).index.length + countAdds rest = _
      rw [updateMemoryImportance_index]
      rfl
    | del mid uid =>
      show (deleteMemory s mid uid).index.length + countAdds rest = _
      rw [deleteMemory_index]
      rfl

theorem load_serialize (s : VStore) :
    loadStoreData (serializeStore s) = (s.memories, s.user_memories) := by
  simp only [loadStoreData, serializeStore, List.map_map]
  refine Prod.ext ?_ rfl
  show s.memories.map _ = s.memories
  conv_rhs => rw [← List.map_id s.memories]
  apply List.map_congr_left
  intro p _
  simp [Function.comp, entryOfStored_storedOfEntry]

theorem saveStore_file (s : VStore) :
    (saveStore s).file.map loadStoreData =
      some ((saveStore s).memories, (saveStore s).user_memories) := by
  show some (loadStoreData (serializeStore s)) = _
  rw [load_serialize]
  rfl

/-- C2: across any trace of store operations, the FAISS index row count
equals the number of `add_memory` calls; `delete_memory` of a present id
removes the entry from `memories` and from the owning user list and
persists the store, but leaves the index unchanged; and on the concrete
demo trace the index row count differs from the number of live
memories. -/
theorem claim_C2 :
    (∀ nrm ops, (runOps nrm ops).index.length = countAdds ops) ∧
    (∀ s mid uid, (dlookup mid s.memories).isSome = true →
      mid ∈ (dlookup uid s.user_memories).getD [] →
      (deleteMemory s mid uid).memories = derase mid s.memories ∧
      (deleteMemory s mid uid).user_memories =
        dinsert uid (removeFirst mid ((dlookup uid s.user_memories).getD []))
          s.user_memories ∧
      (deleteMemory s mid uid).index = s.index ∧
      (deleteMemory s mid uid).file = some (serializeStore (deleteMemory s mid uid))) ∧
    (runOps (fun v => v) demoTrace).index.length ≠
      (runOps (fun v => v) demoTrace).memories.length := by
  refine ⟨fun nrm ops => ?_, fun s mid uid h1 h2 => ?_, by decide⟩
  · rw [runOps, runOpsFrom_index_length]
    simp [VStore.empty]
  · have hg : ((dlookup mid s.memories).isSome &&
        ((dlookup uid s.user_memories).getD []).contains mid) = true := by
      rw [h1, contains_of_mem h2]
      rfl
    simp only [deleteMemory, hg, if_true]
    exact ⟨rfl, rfl, rfl, rfl⟩

/-- C2 witness: the general conjuncts instantiated on the demo trace: the
index holds 2 rows (2 adds), and deleting m1 from the store after the two
adds leaves the index at 2 rows. -/
theorem claim_C2_witness :
    (runOps (fun v => v) demoTrace).index.length = countAdds demoTrace ∧
    (deleteMemory (runOps (fun v => v) (demoTrace.take 2)) "m1" "u").index =
      (runOps (fun v => v) (demoTrace.take 2)).index := by
  constructor
  · exact claim_C2.1 (fun v => v) demoTrace
  · exact (claim_C2.2.1 (runOps (fun v => v) (demoTrace.take 2)) "m1" "u" (by decide)
      (by decide)).2.2.1

/-- C3: `search_memories` resolves a FAISS row number positionally into
the insertion-ordered key list of the `memories` dict, and after the demo
trace (add m1, add m2, delete m1) row 0 — whose vector was stored by the
add of m1 — resolves to m2: the search result for row 0 is the m2 entry
even though m1 owned that row, and m1 is gone from the store. -/
theorem claim_C3 :
    (∀ s (idx : Int), 0 ≤ idx → idx < (s.memories.length : Int) →
      resolveIdx s idx = (dkeys s.memories)[idx.toNat]?) ∧
    rowOwners demoTrace = ["m1", "m2"] ∧
    (runOps (fun v => v) demoTrace).index.length = 2 ∧
    resolveIdx (runOps (fun v => v) demoTrace) 0 = some "m2" ∧
    (searchMemories (runOps (fun v => v) demoTrace) "u" 5 none [0]).map (fun m => m.id) =
      ["m2"] ∧
    getMemoryById (runOps (fun v => v) demoTrace) "m1" = none ∧
    ("m2" : String) ≠ "m1" := by
  refine ⟨fun s idx h0 hlen => ?_, by decide, by decide, by decide, by decide, by decide,
    by decide⟩
  rw [resolveIdx, if_pos hlen, pyGet, if_pos h0]

/-- C3 witness: the positional-resolution conjunct applied to the store
left by the demo trace at row 0. -/
theorem claim_C3_witness :
    resolveIdx (runOps (fun v => v) demoTrace) 0 =
      (dkeys (runOps (fun v => v) demoTrace).memories)[(0 : Int).toNat]? :=
  claim_C3.1 (runOps (fun v => v) demoTrace) 0 (by decide) (by decide)

/-- C4: after each write operation (`add_memory`, `update_memory_importance`
of a present id, `delete_memory` of a present id) the dicts held in memory
coincide with what `_load_store` reads back from the just-written
`memories.json`. -/
theorem claim_C4 :
    (∀ nrm s mid uid c mt md imp emb ca,
      ((addMemory nrm s mid uid c mt md imp emb ca).1).file.map loadStoreData =
        some (((addMemory nrm s mid uid c mt md imp emb ca).1).memories,
              ((addMemory nrm s mid uid c mt md imp emb ca).1).user_memories)) ∧
    (∀ s mid imp, (dlookup mid s.memories).isSome = true →
      (updateMemoryImportance s mid imp).file.map loadStoreData =
        some ((updateMemoryImportance s mid imp).memories,
              (updateMemoryImportance s mid imp).user_memories)) ∧
    (∀ s mid uid, (dlookup mid s.memories).isSome = true →
      mid ∈ (dlookup uid s.user_memories).getD [] →
      (deleteMemory s mid uid).file.map loadStoreData =
        some ((deleteMemory s mid uid).memories,
              (deleteMemory s mid uid).user_memories)) := by
  refine ⟨fun nrm s mid uid c mt md imp emb ca => ?_, fun s mid imp h => ?_,
    fun s mid uid h1 h2 => ?_⟩
  · exact saveStore_file _
  · rcases Option.isSome_iff_exists.mp h with ⟨m, hm⟩
    simp only [updateMemoryImportance, hm]
    exact saveStore_file _
  · have hg : ((dlookup mid s.memories).isSome &&
        ((dlookup uid s.user_memories).getD []).contains mid) = true := by
      rw [h1, contains_of_mem h2]
      rfl
    simp only [deleteMemory, hg, if_true]
    exact saveStore_file _

/-- C4 witness: the three conjuncts applied after the first add of the demo
trace: the add itself, then an importance update of m1, then a delete of
m1, each leave the file in sync with memory. -/
theorem claim_C4_witness :
    (((addMemory (fun v => v) VStore.empty "m1" "u" "c1" "conversation" [] 0 [(1 : ℚ)]
        0).1).file.map loadStoreData =
      some (((addMemory (fun v => v) VStore.empty "m1" "u" "c1" "conversation" [] 0 [(1 : ℚ)]
        0).1).memories,
        ((addMemory (fun v => v) VStore.empty "m1" "u" "c1" "conversation" [] 0 [(1 : ℚ)]
        0).1).user_memories)) ∧
    ((updateMemoryImportance (runOps (fun v => v) (demoTrace.take 1)) "m1" 1).file.map
        loadStoreData =
      some ((updateMemoryImportance (runOps (fun v => v) (demoTrace.take 1)) "m1" 1).memories,
        (updateMemoryImportance (runOps (fun v => v) (demoTrace.take 1)) "m1" 1).user_memories)) ∧
    ((deleteMemory (runOps (fun v => v) (demoTrace.take 1)) "m1" "u").file.map loadStoreData =
      some ((deleteMemory (runOps (fun v => v) (demoTrace.take 1)) "m1" "u").memories,
        (deleteMemory (runOps (fun v => v) (demoTrace.take 1)) "m1" "u").user_memories)) :=
  ⟨claim_C4.1 (fun v => v) VStore.empty "m1" "u" "c1" "conversation" [] 0 [(1 : ℚ)] 0,
   claim_C4.2.1 (runOps (fun v => v) (demoTrace.take 1)) "m1" 1 (by decide),
   claim_C4.2.2 (runOps (fun v => v) (demoTrace.take 1)) "m1" "u" (by decide) (by decide)⟩

/-! ## Invariant preservation -/

theorem nodup_append_singleton {l : List String} {x : String} (hl : l.Nodup) (hx : x ∉ l) :
    (l ++ [x]).Nodup := by
  refine List.nodup_append.mpr ⟨hl, List.nodup_singleton x, ?_⟩
  intro a ha hb
  rw [List.mem_singleton] at hb
  exact hx (hb ▸ ha)

theorem DictInv_add (mems : List (String × MemoryEntry)) (ums : List (String × List String))
    (mid uid c mt : String) (md : List (String × String)) (imp : ℚ) (emb : List ℚ) (ca : Int)
    (hInv : DictInv mems ums) (hfresh : dlookup mid mems = none) :
    DictInv (dinsert mid ⟨mid, uid, c, mt, md, emb, ca, imp⟩ mems)
      (dinsert uid ((dlookup uid ums).getD [] ++ [mid]) ums) := by
  obtain ⟨hkm, hku, hum, hmu⟩ := hInv
  have hmidk : mid ∉ dkeys mems := (dlookup_eq_none_iff mid mems).mp hfresh
  have hfreshlist : ∀ u ids, dlookup u ums = some ids → mid ∉ ids := by
    intro u ids hl hmem
    obtain ⟨m, hm, _, _⟩ := (hum u ids hl).2 mid hmem
    rw [hfresh] at hm
    exact Option.noConfusion hm
  refine ⟨?_, ?_, ?_, ?_⟩
  · rw [dkeys_dinsert_new _ _ _ hmidk]
    exact nodup_append_singleton hkm hmidk
  · by_cases huid : uid ∈ dkeys ums
    · rw [dkeys_dinsert_mem _ _ _ huid]
      exact hku
    · rw [dkeys_dinsert_new _ _ _ huid]
      exact nodup_append_singleton hku huid
  · intro u ids hl
    by_cases hu : u = uid
    · subst hu
      rw [dlookup_dinsert_self] at hl
      have hids := Option.some.inj hl
      subst hids
      constructor
      · cases hul : dlookup u ums with
        | none =>
          show ([mid]).Nodup
          exact List.nodup_singleton mid
        | some ul =>
          show (ul ++ [mid]).Nodup
          exact nodup_append_singleton (hum u ul hul).1 (hfreshlist u ul hul)
      · intro mid2 hmem2
        rcases List.mem_append.mp hmem2 with hc | hc
        · cases hul : dlookup u ums with
          | none =>
            rw [hul] at hc
            simp at hc
          | some ul =>
            rw [hul] at hc
            have hc2 : mid2 ∈ ul := hc
            obtain ⟨m, hm, hmu1, hmid⟩ := (hum u ul hul).2 mid2 hc2
            have hne : mid2 ≠ mid := by
              intro hh
              rw [hh, hfresh] at hm
              exact Option.noConfusion hm
            exact ⟨m, by rw [dlookup_dinsert_ne _ _ _ _ hne]; exact hm, hmu1, hmid⟩
        · rw [List.mem_singleton] at hc
          subst hc
          exact ⟨⟨mid2, u, c, mt, md, emb, ca, imp⟩, dlookup_dinsert_self _ _ _, rfl, rfl⟩
    · rw [dlookup_dinsert_ne _ _ _ _ hu] at hl
      refine ⟨(hum u ids hl).1, ?_⟩
      intro mid2 hmem2
      obtain ⟨m, hm, hmu1, hmid⟩ := (hum u ids hl).2 mid2 hmem2
      have hne : mid2 ≠ mid := by
        intro hh
        rw [hh, hfresh] at hm
        exact Option.noConfusion hm
      exact ⟨m, by rw [dlookup_dinsert_ne _ _ _ _ hne]; exact hm, hmu1, hmid⟩
  · intro mid2 m hl
    by_cases he : mid2 = mid
    · subst he
      rw [dlookup_dinsert_self] at hl
      have hm := Option.some.inj hl
      subst hm
      refine ⟨rfl, (dlookup uid ums).getD [] ++ [mid2], dlookup_dinsert_self _ _ _, ?_⟩
      exact List.mem_append.mpr (Or.inr (List.mem_singleton.mpr rfl))
    · rw [dlookup_dinsert_ne _ _ _ _ he] at hl
      obtain ⟨hid, ids, hl2, hmem3⟩ := hmu mid2 m hl
      by_cases hu : m.user_id = uid
      · refine ⟨hid, (dlookup uid ums).getD [] ++ [mid], ?_, ?_⟩
        · rw [hu]
          exact dlookup_dinsert_self _ _ _
        · rw [hu] at hl2
          have hids : (dlookup uid ums).getD [] = ids := by rw [hl2]; rfl
          rw [hids]
          exact List.mem_append.mpr (Or.inl hmem3)
      · exact ⟨hid, ids, by rw [dlookup_dinsert_ne _ _ _ _ hu]; exact hl2, hmem3⟩

theorem DictInv_update (mems : List (String × MemoryEntry)) (ums : List (String × List String))
    (mid : String) (imp : ℚ) (m : MemoryEntry) (hInv : DictInv mems ums)
    (hl : dlookup mid mems = some m) :
    DictInv (dinsert mid { m with importance := imp } mems) ums := by
  obtain ⟨hkm, hku, hum, hmu⟩ := hInv
  have hmk : mid ∈ dkeys mems := mem_dkeys_of_dlookup hl
  refine ⟨?_, hku, ?_, ?_⟩
  · rw [dkeys_dinsert_mem _ _ _ hmk]
    exact hkm
  · intro u ids hl2
    refine ⟨(hum u ids hl2).1, ?_⟩
    intro mid2 hmem2
    obtain ⟨m2, hm2, hmu2, hid2⟩ := (hum u ids hl2).2 mid2 hmem2
    by_cases he : mid2 = mid
    · subst he
      rw [hl] at hm2
      have hm2m := Option.some.inj hm2
      refine ⟨{ m with importance := imp }, dlookup_dinsert_self _ _ _, ?_, ?_⟩
      · show m.user_id = u
        rw [hm2m]
        exact hmu2
      · show m.id = mid2
        rw [hm2m]
        exact hid2
    · exact ⟨m2, by rw [dlookup_dinsert_ne _ _ _ _ he]; exact hm2, hmu2, hid2⟩
  · intro mid2 m2 hl2
    by_cases he : mid2 = mid
    · subst he
      rw [dlookup_dinsert_self] at hl2
      have hm2 := Option.some.inj hl2
      subst hm2
      obtain ⟨hid, ids, hlu, hmem⟩ := hmu mid2 m hl
      exact ⟨hid, ids, hlu, hmem⟩
    · rw [dlookup_dinsert_ne _ _ _ _ he] at hl2
      exact hmu mid2 m2 hl2

theorem DictInv_delete (mems : List (String × MemoryEntry)) (ums : List (String × List String))
    (mid uid : String) (ids : List String) (hInv : DictInv mems ums)
    (hlu : dlookup uid ums = some ids) (hmem : mid ∈ ids) :
    DictInv (derase mid mems) (dinsert uid (removeFirst mid ids) ums) := by
  obtain ⟨hkm, hku, hum, hmu⟩ := hInv
  have hidn : ids.Nodup := (hum uid ids hlu).1
  have huidk : uid ∈ dkeys ums := mem_dkeys_of_dlookup hlu
  refine ⟨?_, ?_, ?_, ?_⟩
  · exact ((derase_sublist mid mems).map Prod.fst).nodup hkm
  · rw [dkeys_dinsert_mem _ _ _ huidk]
    exact hku
  · intro u ids2 hl2
    by_cases hu : u = uid
    · subst hu
      rw [dlookup_dinsert_self] at hl2
      have hids2 := Option.some.inj hl2
      subst hids2
      refine ⟨(removeFirst_sublist mid ids).nodup hidn, ?_⟩
      intro mid2 hmem2
      have hne : mid2 ≠ mid := by
        intro hh
        rw [hh] at hmem2
        exact not_mem_removeFirst hidn hmem2
      have hmem3 : mid2 ∈ ids := (mem_removeFirst_of_ne ids hne).mp hmem2
      obtain ⟨m, hm, hmu1, hmid⟩ := (hum u ids hlu).2 mid2 hmem3
      exact ⟨m, by rw [dlookup_derase_ne _ _ _ hne]; exact hm, hmu1, hmid⟩
    · rw [dlookup_dinsert_ne _ _ _ _ hu] at hl2
      refine ⟨(hum u ids2 hl2).1, ?_⟩
      intro mid2 hmem2
      obtain ⟨m, hm, hmu1, hmid⟩ := (hum u ids2 hl2).2 mid2 hmem2
      have hne : mid2 ≠ mid := by
        intro hh
        subst hh
        obtain ⟨m3, hm3, hmu3, _⟩ := (hum uid ids hlu).2 mid2 hmem
        rw [hm] at hm3
        have hmm := Option.some.inj hm3
        subst hmm
        exact hu (hmu1.symm.trans hmu3)
      exact ⟨m, by rw [dlookup_derase_ne _ _ _ hne]; exact hm, hmu1, hmid⟩
  · intro mid2 m hl2
    have hne : mid2 ≠ mid := by
      intro hh
      subst hh
      rw [dlookup_derase_self _ _ hkm] at hl2
      exact Option.noConfusion hl2
    rw [dlookup_derase_ne _ _ _ hne] at hl2
    obtain ⟨hid, ids2, hlu2, hmem2⟩ := hmu mid2 m hl2
    by_cases hu : m.user_id = uid
    · rw [hu] at hlu2
      rw [hlu] at hlu2
      have hids2 := Option.some.inj hlu2
      subst hids2
      refine ⟨hid, removeFirst mid ids, ?_, ?_⟩
      · rw [hu]
        exact dlookup_dinsert_self _ _ _
      · exact (mem_removeFirst_of_ne ids hne).mpr hmem2
    · exact ⟨hid, ids2, by rw [dlookup_dinsert_ne _ _ _ _ hu]; exact hlu2, hmem2⟩

theorem mem_of_contains {a : String} {l : List String} (h : l.contains a = true) : a ∈ l :=
  List.mem_of_elem_eq_true h

theorem StoreInv_empty : StoreInv VStore.empty := by
  refine ⟨List.nodup_nil, List.nodup_nil, ?_, ?_⟩
  · intro u ids h
    exact absurd h (by simp [VStore.empty, dlookup])
  · intro mid m h
    exact absurd h (by simp [VStore.empty, dlookup])

theorem StoreInv_applyOp (nrm : List ℚ → List ℚ) (s : VStore) (op : Op) (hInv : StoreInv s)
    (hok : (match op with
            | .add mid _ _ _ _ _ _ _ => (dlookup mid s.memories).isNone
            | _ => true) = true) :
    StoreInv (applyOp nrm s op) := by
  cases op with
  | add mid uid c mt md imp emb ca =>
    have hfresh : dlookup mid s.memories = none := by
      simpa using hok
    show DictInv (dinsert mid ⟨mid, uid, c, mt, md, emb, ca, imp⟩ s.memories)
      (dinsert uid ((dlookup uid s.user_memories).getD [] ++ [mid]) s.user_memories)
    exact DictInv_add _ _ _ _ _ _ _ _ _ _ hInv hfresh
  | update mid imp =>
    show StoreInv (updateMemoryImportance s mid imp)
    cases hl : dlookup mid s.memories with
    | none =>
      simp only [updateMemoryImportance, hl]
      exact hInv
    | some m =>
      simp only [updateMemoryImportance, hl]
      show DictInv (dinsert mid { m with importance := imp } s.memories) s.user_memories
      exact DictInv_update _ _ _ _ _ hInv hl
  | del mid uid =>
    show StoreInv (deleteMemory s mid uid)
    simp only [deleteMemory]
    split
    · next hcond =>
      have hc : ((dlookup uid s.user_memories).getD []).contains mid = true := by
        simp only [Bool.and_eq_true] at hcond
        exact hcond.2
      have hmemul : mid ∈ (dlookup uid s.user_memories).getD [] := mem_of_contains hc
      cases hlu : dlookup uid s.user_memories with
      | none =>
        rw [hlu] at hmemul
        simp at hmemul
      | some ids =>
        rw [hlu] at hmemul
        have hmem2 : mid ∈ ids := hmemul
        show DictInv (derase mid s.memories)
          (dinsert uid (removeFirst mid ids) s.user_memories)
        exact DictInv_delete _ _ _ _ _ hInv hlu hmem2
    · exact hInv

theorem StoreInv_runOpsFrom (nrm : List ℚ → List ℚ) :
    ∀ (ops : List Op) (s : VStore), StoreInv s → traceOK nrm s ops = true →
      StoreInv (runOpsFrom nrm s ops) := by
  intro ops
  induction ops with
  | nil =>
    intro s h _
    exact h
  | cons op rest ih =>
    intro s hInv hok
    simp only [traceOK, Bool.and_eq_true] at hok
    exact ih (applyOp nrm s op) (StoreInv_applyOp nrm s op hInv hok.1) hok.2

/-- C9: in every state reachable from the empty store by `add_memory` (with
fresh uuid4 ids), `update_memory_importance` and `delete_memory` calls,
every id listed under a user resolves in `memories` to an entry of that
user, and every stored entry is listed under its own user. -/
theorem claim_C9 (nrm : List ℚ → List ℚ) (ops : List Op)
    (hok : traceOK nrm VStore.empty ops = true) :
    (∀ u ids, dlookup u (runOps nrm ops).user_memories = some ids →
      ∀ mid ∈ ids, ∃ m, dlookup mid (runOps nrm ops).memories = some m ∧ m.user_id = u) ∧
    (∀ mid m, dlookup mid (runOps nrm ops).memories = some m →
      ∃ ids, dlookup m.user_id (runOps nrm ops).user_memories = some ids ∧ mid ∈ ids) := by
  have hInv : StoreInv (runOps nrm ops) :=
    StoreInv_runOpsFrom nrm ops VStore.empty StoreInv_empty hok
  obtain ⟨_, _, hum, hmu⟩ := hInv
  constructor
  · intro u ids hl mid hmem
    obtain ⟨m, hm, hmu1, _⟩ := (hum u ids hl).2 mid hmem
    exact ⟨m, hm, hmu1⟩
  · intro mid m hl
    exact (hmu mid m hl).2

/-- C9 witness: on the demo trace (whose adds use fresh ids), the id m2
listed under user u resolves to an entry of user u. -/
theorem claim_C9_witness :
    ∃ m, dlookup "m2" (runOps (fun v => v) demoTrace).memories = some m ∧ m.user_id = "u" :=
  (claim_C9 (fun v => v) demoTrace (by decide)).1 "u" ["m2"] (by decide) "m2" (by decide)

/-! ## Sorting lemmas for `get_user_context` -/

theorem memKeyLe_trans (a b c : MemoryEntry) :
    memKeyLe a b = true → memKeyLe b c = true → memKeyLe a c = true := by
  simp only [memKeyLe, decide_eq_true_eq]
  intro hab hbc
  rcases hab with h | ⟨h1, h2⟩ <;> rcases hbc with h3 | ⟨h3, h4⟩
  · exact Or.inl (lt_trans h h3)
  · exact Or.inl (h3 ▸ h)
  · exact Or.inl (h1 ▸ h3)
  · exact Or.inr ⟨h1.trans h3, h2.trans h4⟩

theorem memKeyLe_total (a b : MemoryEntry) : memKeyLe a b || memKeyLe b a := by
  simp only [memKeyLe, Bool.or_eq_true, decide_eq_true_eq]
  rcases lt_trichotomy a.created_at b.created_at with h | h | h
  · exact Or.inl (Or.inl h)
  · rcases le_total a.importance b.importance with h2 | h2
    · exact Or.inl (Or.inr ⟨h, h2⟩)
    · exact Or.inr (Or.inr ⟨h.symm, h2⟩)
  · exact Or.inr (Or.inl h)

theorem sortDesc_pairwise (ms : List MemoryEntry) :
    (sortDesc ms).Pairwise (fun a b => memKeyLe b a) :=
  List.sorted_mergeSort (fun a b c hab hbc => memKeyLe_trans c b a hbc hab)
    (fun a b => memKeyLe_total b a) ms

theorem sortDesc_perm (ms : List MemoryEntry) : List.Perm (sortDesc ms) ms :=
  List.mergeSort_perm ms _

theorem getUserContext_of_none {s : VStore} {u : String} {w : Nat}
    (h : dlookup u s.user_memories = none) : getUserContext s u w = [] := by
  simp only [getUserContext, h]

theorem getUserContext_of_some {s : VStore} {u : String} {w : Nat} {ids : List String}
    (h : dlookup u s.user_memories = some ids) :
    getUserContext s u w =
      (sortDesc (ids.filterMap (fun mid => dlookup mid s.memories))).take w := by
  simp only [getUserContext, h]

/-- C5: `get_user_context` returns [] for an unknown user; otherwise it
returns the memories found under the user, sorted descending in the
lexicographic key (created_at, importance) and truncated to the first
`context_window` entries, and every returned memory is the stored entry of
that user. -/
theorem claim_C5 (s : VStore) (u : String) (w : Nat) (hInv : StoreInv s) :
    (dlookup u s.user_memories = none → getUserContext s u w = []) ∧
    (getUserContext s u w).length ≤ w ∧
    (getUserContext s u w).Pairwise (fun a b => memKeyLe b a) ∧
    (∀ m ∈ getUserContext s u w, m.user_id = u ∧ dlookup m.id s.memories = some m) ∧
    (∀ ids, dlookup u s.user_memories = some ids →
      ∃ L, List.Perm L (ids.filterMap (fun mid => dlookup mid s.memories)) ∧
        L.Pairwise (fun a b => memKeyLe b a) ∧ getUserContext s u w = L.take w) := by
  obtain ⟨hkm, hku, hum, hmu⟩ := hInv
  cases hlu : dlookup u s.user_memories with
  | none =>
    rw [getUserContext_of_none hlu]
    refine ⟨fun _ => rfl, Nat.zero_le w, List.Pairwise.nil, fun m hm => absurd hm ?_, ?_⟩
    · simp
    · intro ids h2
      exact absurd h2 (by simp)
  | some ids =>
    rw [getUserContext_of_some hlu]
    refine ⟨fun h => ?_, List.length_take_le w _, ?_, fun m hm => ?_, fun ids2 h2 => ?_⟩
    · exact absurd h (by simp)
    · exact (sortDesc_pairwise _).sublist (List.take_sublist w _)
    · have hm2 : m ∈ sortDesc (ids.filterMap (fun mid => dlookup mid s.memories)) :=
        List.mem_of_mem_take hm
      have hm3 : m ∈ ids.filterMap (fun mid => dlookup mid s.memories) :=
        (sortDesc_perm _).mem_iff.mp hm2
      obtain ⟨mid, hmidmem, hlk⟩ := List.mem_filterMap.mp hm3
      obtain ⟨m2, hm2e, huser, hid⟩ := (hum u ids hlu).2 mid hmidmem
      rw [hlk] at hm2e
      have hm2m := Option.some.inj hm2e
      subst hm2m
      refine ⟨huser, ?_⟩
      rw [hid]
      exact hlk
    · have hids := Option.some.inj h2
      subst hids
      exact ⟨sortDesc (ids.filterMap (fun mid => dlookup mid s.memories)),
        sortDesc_perm _, sortDesc_pairwise _, rfl⟩

/-- C5 witness: on the store left by the demo trace, the context for user u
fits the window and the context for an unknown user is empty. -/
theorem claim_C5_witness :
    (getUserContext (runOps (fun v => v) demoTrace) "u" 20).length ≤ 20 ∧
    getUserContext (runOps (fun v => v) demoTrace) "ghost" 20 = [] :=
  ⟨(claim_C5 (runOps (fun v => v) demoTrace) "u" 20
      (StoreInv_runOpsFrom (fun v => v) demoTrace VStore.empty StoreInv_empty (by decide))).2.1,
   (claim_C5 (runOps (fun v => v) demoTrace) "ghost" 20
      (StoreInv_runOpsFrom (fun v => v) demoTrace VStore.empty StoreInv_empty (by decide))).1
     (by decide)⟩

/-! ## Cleanup lemmas -/

theorem filterMap_dlookup_id_nodup (mems : List (String × MemoryEntry))
    (hid : ∀ mid m, dlookup mid mems = some m → m.id = mid) :
    ∀ ids : List String, ids.Nodup →
      ((ids.filterMap (fun mid => dlookup mid mems)).map (fun m => m.id)).Nodup := by
  intro ids
  induction ids with
  | nil =>
    intro _
    simp
  | cons mid rest ih =>
    intro hnd
    rw [List.nodup_cons] at hnd
    cases hl : dlookup mid mems with
    | none =>
      simp only [List.filterMap_cons, hl]
      exact ih hnd.2
    | some m =>
      simp only [List.filterMap_cons, hl, List.map_cons, List.nodup_cons]
      refine ⟨?_, ih hnd.2⟩
      intro hmem
      obtain ⟨m2, hm2mem, hm2id⟩ := List.mem_map.mp hmem
      obtain ⟨mid2, hmid2, hlk2⟩ := List.mem_filterMap.mp hm2mem
      have e2 : m2.id = mid2 := hid mid2 m2 hlk2
      have e1 : m.id = mid := hid mid m hl
      rw [e2, e1] at hm2id
      rw [hm2id] at hmid2
      exact hnd.1 hmid2

theorem cleanupLoop_spec (cutoff : Int) (u : String) :
    ∀ (ms : List MemoryEntry) (s : VStore) (ids : List String),
      (ms.map (fun m => m.id)).Nodup →
      (∀ m ∈ ms, dlookup m.id s.memories = some m) →
      dlookup u s.user_memories = some ids →
      (∀ m ∈ ms, m.id ∈ ids) →
      (dkeys s.memories).Nodup →
      ids.Nodup →
      (cleanupLoop cutoff u ms s).2 = (ms.filter (shouldDelete cutoff)).length ∧
      (∀ mid, dlookup mid (cleanupLoop cutoff u ms s).1.memories =
        if mid ∈ (ms.filter (shouldDelete cutoff)).map (fun m => m.id) then none
        else dlookup mid s.memories) := by
  intro ms
  induction ms with
  | nil =>
    intro s ids _ _ _ _ _ _
    refine ⟨rfl, fun mid => ?_⟩
    simp [cleanupLoop]
  | cons m rest ih =>
    intro s ids hnd hlkall hlu hmemall hkm hidn
    rw [List.map_cons, List.nodup_cons] at hnd
    obtain ⟨hnd1, hnd2⟩ := hnd
    have hlkm : dlookup m.id s.memories = some m := hlkall m (List.mem_cons_self m rest)
    have hmidids : m.id ∈ ids := hmemall m (List.mem_cons_self m rest)
    have hne : ∀ m2 ∈ rest, m2.id ≠ m.id := by
      intro m2 hm2 hh
      exact hnd1 (hh ▸ List.mem_map_of_mem (fun m => m.id) hm2)
    by_cases hdel : shouldDelete cutoff m = true
    · have hs2m : (deleteMemory s m.id u).memories = derase m.id s.memories := by
        simp [deleteMemory, hlkm, hlu, hmidids, saveStore]
      have hs2u : (deleteMemory s m.id u).user_memories =
          dinsert u (removeFirst m.id ids) s.user_memories := by
        simp [deleteMemory, hlkm, hlu, hmidids, saveStore]
      have hrun : cleanupLoop cutoff u (m :: rest) s =
          ((cleanupLoop cutoff u rest (deleteMemory s m.id u)).1,
           (cleanupLoop cutoff u rest (deleteMemory s m.id u)).2 + 1) := by
        simp [cleanupLoop, hdel]
      have hrestlk : ∀ m2 ∈ rest, dlookup m2.id (deleteMemory s m.id u).memories = some m2 := by
        intro m2 hm2
        rw [hs2m, dlookup_derase_ne _ _ _ (hne m2 hm2)]
        exact hlkall m2 (List.mem_cons_of_mem m hm2)
      have hlu2 : dlookup u (deleteMemory s m.id u).user_memories =
          some (removeFirst m.id ids) := by
        rw [hs2u]
        exact dlookup_dinsert_self _ _ _
      have hmem2 : ∀ m2 ∈ rest, m2.id ∈ removeFirst m.id ids := by
        intro m2 hm2
        exact (mem_removeFirst_of_ne ids (hne m2 hm2)).mpr
          (hmemall m2 (List.mem_cons_of_mem m hm2))
      have hkm2 : (dkeys (deleteMemory s m.id u).memories).Nodup := by
        rw [hs2m]
        exact ((derase_sublist _ _).map Prod.fst).nodup hkm
      have hidn2 : (removeFirst m.id ids).Nodup := (removeFirst_sublist _ _).nodup hidn
      obtain ⟨ihc, ihl⟩ :=
        ih (deleteMemory s m.id u) (removeFirst m.id ids) hnd2 hrestlk hlu2 hmem2 hkm2 hidn2
      rw [hrun]
      constructor
      · show (cleanupLoop cutoff u rest (deleteMemory s m.id u)).2 + 1 = _
        rw [ihc, List.filter_cons_of_pos hdel]
        rfl
      · intro mid
        show dlookup mid (cleanupLoop cutoff u rest (deleteMemory s m.id u)).1.memories = _
        rw [ihl mid, List.filter_cons_of_pos hdel, List.map_cons]
        by_cases hmidr : mid ∈ (rest.filter (shouldDelete cutoff)).map (fun m => m.id)
        · rw [if_pos hmidr, if_pos (List.mem_cons_of_mem _ hmidr)]
        · rw [if_neg hmidr]
          by_cases hmideq : mid = m.id
          · subst hmideq
            rw [if_pos (List.mem_cons_self _ _), hs2m]
            exact dlookup_derase_self _ _ hkm
          · rw [if_neg ?_, hs2m]
            · exact dlookup_derase_ne _ _ _ hmideq
            · intro hc
              rcases List.mem_cons.mp hc with hc | hc
              · exact hmideq hc
              · exact hmidr hc
    · have hdelf : shouldDelete cutoff m = false := by
        revert hdel
        cases shouldDelete cutoff m <;> simp
      have hrun : cleanupLoop cutoff u (m :: rest) s = cleanupLoop cutoff u rest s := by
        simp [cleanupLoop, hdelf]
      obtain ⟨ihc, ihl⟩ := ih s ids hnd2 (fun m2 hm2 => hlkall m2 (List.mem_cons_of_mem m hm2))
        hlu (fun m2 hm2 => hmemall m2 (List.mem_cons_of_mem m hm2)) hkm hidn
      rw [hrun]
      constructor
      · rw [ihc, List.filter_cons_of_neg (by simp [hdelf])]
      · intro mid
        rw [ihl mid, List.filter_cons_of_neg (by simp [hdelf])]

/-- C1: on a consistent store, `cleanup_old_memories` deletes exactly those
of the up-to-1000 considered memories (the `get_user_context` result) whose
`created_at` is strictly older than the cutoff, whose importance is below
0.7, and whose type is neither goal_update nor insight, and returns the
number deleted; every other memory survives, and every considered memory
missing any of the three conditions is still present afterwards. -/
theorem claim_C1 (s : VStore) (u : String) (now retention_days : Int) (hInv : StoreInv s) :
    (cleanupOldMemories s u now retention_days).2 =
      ((getUserContext s u 1000).filter
        (shouldDelete (now - retention_days * daySeconds))).length ∧
    (∀ mid, dlookup mid (cleanupOldMemories s u now retention_days).1.memories = none ↔
      (dlookup mid s.memories = none ∨
        mid ∈ ((getUserContext s u 1000).filter
          (shouldDelete (now - retention_days * daySeconds))).map (fun m => m.id))) ∧
    (∀ m ∈ getUserContext s u 1000,
      shouldDelete (now - retention_days * daySeconds) m = false →
      dlookup m.id (cleanupOldMemories s u now retention_days).1.memories = some m) := by
  obtain ⟨hkm, hku, hum, hmu⟩ := hInv
  have hrw : cleanupOldMemories s u now retention_days =
      cleanupLoop (now - retention_days * daySeconds) u (getUserContext s u 1000) s := rfl
  cases hlu : dlookup u s.user_memories with
  | none =>
    rw [hrw, getUserContext_of_none hlu]
    refine ⟨rfl, fun mid => ?_, fun m hm _ => absurd hm (List.not_mem_nil m)⟩
    simp [cleanupLoop]
  | some ids =>
    have hprem2 : ∀ m ∈ getUserContext s u 1000, dlookup m.id s.memories = some m := by
      intro m hm
      rw [getUserContext_of_some hlu] at hm
      obtain ⟨mid, hmidmem, hlk⟩ := List.mem_filterMap.mp
        ((sortDesc_perm _).mem_iff.mp (List.mem_of_mem_take hm))
      rw [(hmu mid m hlk).1]
      exact hlk
    have hprem4 : ∀ m ∈ getUserContext s u 1000, m.id ∈ ids := by
      intro m hm
      rw [getUserContext_of_some hlu] at hm
      obtain ⟨mid, hmidmem, hlk⟩ := List.mem_filterMap.mp
        ((sortDesc_perm _).mem_iff.mp (List.mem_of_mem_take hm))
      rw [(hmu mid m hlk).1]
      exact hmidmem
    have hprem1 : ((getUserContext s u 1000).map (fun m => m.id)).Nodup := by
      rw [getUserContext_of_some hlu, List.map_take]
      refine (List.take_sublist _ _).nodup ?_
      refine (List.Perm.nodup_iff ((sortDesc_perm _).map (fun m => m.id))).mpr ?_
      exact filterMap_dlookup_id_nodup s.memories (fun mid m h => (hmu mid m h).1) ids
        (hum u ids hlu).1
    obtain ⟨hc, hl⟩ := cleanupLoop_spec (now - retention_days * daySeconds) u
      (getUserContext s u 1000) s ids hprem1 hprem2 hlu hprem4 hkm (hum u ids hlu).1
    refine ⟨by rw [hrw]; exact hc, fun mid => ?_, fun m hm hfalse => ?_⟩
    · rw [hrw, hl mid]
      by_cases hmem : mid ∈ ((getUserContext s u 1000).filter
          (shouldDelete (now - retention_days * daySeconds))).map (fun m => m.id)
      · rw [if_pos hmem]
        exact ⟨fun _ => Or.inr hmem, fun _ => rfl⟩
      · rw [if_neg hmem]
        refine ⟨fun hnone => Or.inl hnone, fun h => ?_⟩
        rcases h with h | h
        · exact h
        · exact absurd h hmem
    · rw [hrw, hl m.id]
      have hnotdel : m.id ∉ ((getUserContext s u 1000).filter
          (shouldDelete (now - retention_days * daySeconds))).map (fun m => m.id) := by
        intro hc2
        obtain ⟨m2, hm2f, hid2⟩ := List.mem_map.mp hc2
        have hm2c := List.mem_filter.mp hm2f
        have e1 : dlookup m.id s.memories = some m := hprem2 m hm
        have e2 : dlookup m2.id s.memories = some m2 := hprem2 m2 hm2c.1
        rw [hid2, e1] at e2
        have hmm := Option.some.inj e2
        have hdel2 := hm2c.2
        rw [← hmm, hfalse] at hdel2
        exact Bool.false_ne_true hdel2
      rw [if_neg hnotdel]
      exact hprem2 m hm

/-- C1 witness: on the store left by the demo trace, a cleanup whose cutoff
lies before every creation time deletes nothing: the considered list is the
single remaining memory m2, it fails the age condition, and the returned
count is 0. -/
theorem claim_C1_witness :
    (cleanupOldMemories (runOps (fun v => v) demoTrace) "u" 0 365).2 = 0 := by
  have h := claim_C1 (runOps (fun v => v) demoTrace) "u" 0 365
    (StoreInv_runOpsFrom (fun v => v) demoTrace VStore.empty StoreInv_empty (by decide))
  rw [h.1]
  have hctx : getUserContext (runOps (fun v => v) demoTrace) "u" 1000 =
      [⟨"m2", "u", "c2", "conversation", [], [(2 : ℚ)], 1, 0⟩] := by
    rw [getUserContext_of_some (show dlookup "u" (runOps (fun v => v)
      demoTrace).user_memories = some ["m2"] from by decide)]
    have hfm : List.filterMap (fun mid => dlookup mid (runOps (fun v => v)
        demoTrace).memories) ["m2"] =
        [⟨"m2", "u", "c2", "conversation", [], [(2 : ℚ)], 1, 0⟩] := rfl
    rw [hfm, sortDesc]
    simp
  have hsd : shouldDelete (0 - 365 * daySeconds)
      ⟨"m2", "u", "c2", "conversation", [], [(2 : ℚ)], 1, 0⟩ = false := rfl
  have hne : ¬(shouldDelete (0 - 365 * daySeconds)
      (⟨"m2", "u", "c2", "conversation", [], [(2 : ℚ)], 1, 0⟩ : MemoryEntry) = true) := by
    rw [hsd]
    exact Bool.false_ne_true
  rw [hctx, List.filter_cons_of_neg hne]
  rfl
